import Mathlib

/-!
Shallow embedding of the adaptive word-selection engine in
src/lib/smart-learning.ts (class SmartLearningEngine), together with
theorems settling the specification claims about it.

Modelling conventions:
* JavaScript numbers holding counters are embedded as Nat; indices and
  pool sizes (which the code can drive negative) as Int; the derived
  accuracy field and the threshold comparisons as exact rationals.
* A JS object used as a string-keyed record is an association list with
  replace-in-place-or-append insertion, matching JS key-order semantics.
* Date.now() is an injected parameter now : Int.
* Math.random() draws are injected: the review draw as a Bool (the
  outcome of random < 0.2), the mastered-fallback pick as a Nat index
  taken modulo the bucket length.
* Array.prototype.sort with a numeric comparator is a stable ascending
  sort; it is embedded as a stable insertion sort.
-/

inductive MasteryLevel where
  | learning
  | practiced
  | mastered
deriving DecidableEq, Repr

/-- WordProgress record from smart-learning.ts lines 1-9. -/
structure WordProgress where
  word : String
  attempts : Nat
  correct : Nat
  accuracy : ℚ
  lastSeen : Int
  masteryLevel : MasteryLevel
  introducedAt : Int
deriving DecidableEq, Repr

/-- A vocabulary entry; the engine reads only the italian key field. -/
structure VocabEntry where
  italian : String
  english : String
deriving DecidableEq, Repr

/-- The word-keyed progress record, as an association list. -/
abbrev WPMap := List (String × WordProgress)

/-- Lookup in the record: state.wordProgress[word]. -/
def lookupWP (m : WPMap) (k : String) : Option WordProgress :=
  (m.find? (fun e => e.1 == k)).map (·.2)

/-- JS assignment obj[k] = v: replaces the value in place when the key is
present, appends otherwise (JS string-key order). -/
def insertWP (m : WPMap) (k : String) (v : WordProgress) : WPMap :=
  if (m.find? (fun e => e.1 == k)).isSome then
    m.map (fun e => if e.1 == k then (k, v) else e)
  else m ++ [(k, v)]

/-- SmartLearningState from smart-learning.ts lines 11-16. -/
structure SmartLearningState where
  currentWordIndex : Int
  wordProgress : WPMap
  sessionStarted : Int
  totalWordsIntroduced : Int
deriving DecidableEq, Repr

/-- The fresh record the engine creates for a newly admitted word. -/
def freshProgress (w : String) (now : Int) : WordProgress :=
  { word := w
    attempts := 0
    correct := 0
    accuracy := 0
    lastSeen := 0
    masteryLevel := .learning
    introducedAt := now }

/-- SmartLearningEngine.initializeProgress (lines 26-49): admits the
prefix of min(poolSize, length) vocabulary entries, each fresh. -/
def initializeProgress (vocab : List VocabEntry) (poolSize : Int)
    (now : Int) : SmartLearningState :=
  let idx : Int := min poolSize (vocab.length : Int)
  { currentWordIndex := idx
    wordProgress :=
      (vocab.take idx.toNat).foldl
        (fun m w => insertWP m w.italian (freshProgress w.italian now)) []
    sessionStarted := now
    totalWordsIntroduced := idx }

/-- SmartLearningEngine.updateWordProgress (lines 51-81): looks up or
lazily creates the record, bumps the counters, recomputes accuracy,
stamps lastSeen, and re-evaluates the mastery level in precedence
order (mastered test, then practiced test, else unchanged). -/
def updateWordProgress (s : SmartLearningState) (word : String)
    (isCorrect : Bool) (now : Int) : SmartLearningState :=
  let p0 := (lookupWP s.wordProgress word).getD (freshProgress word now)
  let attempts := p0.attempts + 1
  let correct := p0.correct + (if isCorrect then 1 else 0)
  let accuracy : ℚ := (correct : ℚ) / (attempts : ℚ)
  let level :=
    if attempts ≥ 5 ∧ accuracy ≥ 0.8 then MasteryLevel.mastered
    else if attempts ≥ 3 ∧ accuracy ≥ 0.6 then MasteryLevel.practiced
    else p0.masteryLevel
  { s with
    wordProgress :=
      insertWP s.wordProgress word
        { p0 with
          attempts := attempts
          correct := correct
          accuracy := accuracy
          lastSeen := now
          masteryLevel := level } }

/-- SmartLearningEngine.shouldExpandVocabulary (lines 83-92). The JS
division practicedOrMastered / currentWords.length yields NaN on an
empty record and NaN >= 0.7 is false; rational division yields 0/0 = 0
and 0 >= 0.7 is false, so the embedding agrees on every input. -/
def shouldExpandVocabulary (s : SmartLearningState)
    (vocab : List VocabEntry) : Bool :=
  if s.currentWordIndex ≥ (vocab.length : Int) then false
  else
    let currentWords := s.wordProgress.map (·.2)
    let practicedOrMastered :=
      (currentWords.filter (fun p =>
        p.masteryLevel == MasteryLevel.practiced ||
        p.masteryLevel == MasteryLevel.mastered)).length
    decide ((practicedOrMastered : ℚ) / (currentWords.length : ℚ) ≥ 0.7)

/-- vocabulary[i] for an Int index; JS yields undefined (and then a
TypeError on field access) for out-of-range indices, which can only be
reached from states with a negative currentWordIndex. -/
def getEntry? (vocab : List VocabEntry) (i : Int) : Option VocabEntry :=
  if 0 ≤ i then vocab.get? i.toNat else none

/-- SmartLearningEngine.expandVocabulary (lines 94-122). newWordCount
is an Int: with poolSize below the tracked-word count it is negative,
the loop body never runs, and currentWordIndex/totalWordsIntroduced
are still advanced by the (negative) count, exactly as the JS does. -/
def expandVocabulary (s : SmartLearningState) (vocab : List VocabEntry)
    (poolSize : Int) (now : Int) : SmartLearningState :=
  let newWordCount : Int :=
    min 3 (min ((vocab.length : Int) - s.currentWordIndex)
               (poolSize - (s.wordProgress.length : Int)))
  let wp :=
    (List.range newWordCount.toNat).foldl
      (fun (m : WPMap) (i : Nat) =>
        match getEntry? vocab (s.currentWordIndex + (i : Int)) with
        | some w => insertWP m w.italian (freshProgress w.italian now)
        | none => m)
      s.wordProgress
  { s with
    wordProgress := wp
    currentWordIndex := s.currentWordIndex + newWordCount
    totalWordsIntroduced := s.totalWordsIntroduced + newWordCount }

/-- Stable insertion into a list sorted ascending by key: equal keys
keep the incoming element first, matching a stable ascending sort. -/
def sortKeyInsert {α β : Type} [LinearOrder β] (key : α → β) (a : α) :
    List α → List α
  | [] => [a]
  | b :: l => if key a ≤ key b then a :: b :: l else b :: sortKeyInsert key a l

/-- Stable ascending sort by key, embedding the JS
sort((x, y) => key(x) - key(y)). -/
def sortByKey {α β : Type} [LinearOrder β] (key : α → β) : List α → List α
  | [] => []
  | a :: l => sortKeyInsert key a (sortByKey key l)

/-- Array.prototype.slice(0, end) with a possibly negative end. -/
def jsSliceEnd (len : Nat) (e : Int) : Nat :=
  if 0 ≤ e then min e.toNat len else ((len : Int) + e).toNat

/-- The effective progress record the scheduler uses for an active
word: the tracked record, or a fresh default when absent. -/
def effectiveProgress (s : SmartLearningState) (now : Int)
    (w : VocabEntry) : WordProgress :=
  (lookupWP s.wordProgress w.italian).getD (freshProgress w.italian now)

/-- availableWords in selectNextWord: vocabulary.slice(0, currentWordIndex). -/
def availableWordsOf (s : SmartLearningState) (vocab : List VocabEntry) :
    List VocabEntry :=
  vocab.take (jsSliceEnd vocab.length s.currentWordIndex)

/-- wordProgresses in selectNextWord: effective records of the active
prefix, in vocabulary order. -/
def activeProgresses (s : SmartLearningState) (vocab : List VocabEntry)
    (now : Int) : List WordProgress :=
  (availableWordsOf s vocab).map (effectiveProgress s now)

/-- The mastery-level partition of the active records. -/
def levelBucket (s : SmartLearningState) (vocab : List VocabEntry)
    (now : Int) (lvl : MasteryLevel) : List WordProgress :=
  (activeProgresses s vocab now).filter (fun p => p.masteryLevel == lvl)

/-- practicePool in selectNextWord: the learning bucket when non-empty,
else the practiced bucket. -/
def practicePoolOf (s : SmartLearningState) (vocab : List VocabEntry)
    (now : Int) : List WordProgress :=
  if !(levelBucket s vocab now MasteryLevel.learning).isEmpty then
    levelBucket s vocab now MasteryLevel.learning
  else levelBucket s vocab now MasteryLevel.practiced

/-- SmartLearningEngine.selectNextWord (lines 124-167). reviewDraw is
the outcome of Math.random() < REVIEW_PROBABILITY; fallbackIdx models
the uniform pick in the all-mastered fallback (taken mod the bucket
length). sort(...)[0] is embedded as head of the stable sort. -/
def selectNextWord (s : SmartLearningState) (vocab : List VocabEntry)
    (reviewDraw : Bool) (fallbackIdx : Nat) (now : Int) :
    Option VocabEntry :=
  let availableWords := availableWordsOf s vocab
  if availableWords.isEmpty then none
  else
    let masteredWords := levelBucket s vocab now MasteryLevel.mastered
    let shouldReview := reviewDraw && !masteredWords.isEmpty
    let selectedProgress? : Option WordProgress :=
      if shouldReview then
        (sortByKey (·.lastSeen) masteredWords).head?
      else
        let practicePool := practicePoolOf s vocab now
        if practicePool.isEmpty then
          masteredWords.get? (fallbackIdx % masteredWords.length)
        else
          (sortByKey (·.accuracy) practicePool).head?
    selectedProgress?.bind
      (fun p => availableWords.find? (fun w => w.italian == p.word))

/-- The record returned by getProgressStats. -/
structure ProgressStats where
  total : Nat
  learning : Nat
  practiced : Nat
  mastered : Nat
  overallAccuracy : ℚ
deriving DecidableEq, Repr

/-- SmartLearningEngine.getProgressStats (lines 169-183). -/
def getProgressStats (s : SmartLearningState) : ProgressStats :=
  let progresses := s.wordProgress.map (·.2)
  { total := progresses.length
    learning :=
      (progresses.filter (fun p =>
        p.masteryLevel == MasteryLevel.learning)).length
    practiced :=
      (progresses.filter (fun p =>
        p.masteryLevel == MasteryLevel.practiced)).length
    mastered :=
      (progresses.filter (fun p =>
        p.masteryLevel == MasteryLevel.mastered)).length
    overallAccuracy :=
      if progresses.length > 0 then
        (progresses.foldl (fun sum p => sum + p.accuracy) 0) /
          (progresses.length : ℚ)
      else 0 }

/-! ### Lemmas about the association-list record -/

theorem find?_map_replace (m : WPMap) (k : String) (v : WordProgress) :
    (m.map (fun e => if e.1 == k then (k, v) else e)).find? (fun e => e.1 == k) =
      if (m.find? (fun e => e.1 == k)).isSome then some (k, v) else none := by
  induction m with
  | nil => simp
  | cons e t ih =>
    simp only [List.map_cons]
    by_cases he : e.1 = k
    · have h1 : (if (e.1 == k) = true then (k, v) else e) = (k, v) := by
        simp [he]
      rw [h1, List.find?_cons_of_pos _ (by simp),
          List.find?_cons_of_pos _ (by simp [he])]
      simp
    · have h1 : (if (e.1 == k) = true then (k, v) else e) = e := by
        simp [he]
      rw [h1, List.find?_cons_of_neg _ (by simp [he]),
          List.find?_cons_of_neg _ (by simp [he]), ih]

theorem find?_map_replace_ne (m : WPMap) (k : String) (v : WordProgress)
    (k' : String) (hk : k' ≠ k) :
    (m.map (fun e => if e.1 == k then (k, v) else e)).find? (fun e => e.1 == k') =
      m.find? (fun e => e.1 == k') := by
  have hk' : k ≠ k' := Ne.symm hk
  induction m with
  | nil => simp
  | cons e t ih =>
    simp only [List.map_cons]
    by_cases he : e.1 = k
    · have h1 : (if (e.1 == k) = true then (k, v) else e) = (k, v) := by
        simp [he]
      rw [h1, List.find?_cons_of_neg _ (by simp [hk']),
          List.find?_cons_of_neg _ (by simp [he, hk']), ih]
    · have h1 : (if (e.1 == k) = true then (k, v) else e) = e := by
        simp [he]
      rw [h1]
      by_cases he' : e.1 = k'
      · rw [List.find?_cons_of_pos _ (by simp [he']),
            List.find?_cons_of_pos _ (by simp [he'])]
      · rw [List.find?_cons_of_neg _ (by simp [he']),
            List.find?_cons_of_neg _ (by simp [he']), ih]

theorem lookupWP_insertWP (m : WPMap) (k : String) (v : WordProgress)
    (k' : String) :
    lookupWP (insertWP m k v) k' = if k' = k then some v else lookupWP m k' := by
  unfold insertWP lookupWP
  by_cases hp : (m.find? (fun e => e.1 == k)).isSome
  · rw [if_pos hp]
    by_cases hk : k' = k
    · subst hk
      rw [find?_map_replace, if_pos hp]
      simp
    · rw [find?_map_replace_ne _ _ _ _ hk, if_neg hk]
  · rw [if_neg hp]
    rw [List.find?_append]
    by_cases hk : k' = k
    · subst hk
      have hnone : m.find? (fun e => e.1 == k') = none := by
        cases h : m.find? (fun e => e.1 == k') with
        | none => rfl
        | some a => exact absurd (by simp [h]) hp
      rw [hnone, if_pos rfl]
      simp
    · have hk' : (k == k') = false := by
        simp
        exact Ne.symm hk
      rw [if_neg hk]
      simp [hk']

theorem mem_insertWP (m : WPMap) (k : String) (v : WordProgress)
    (e : String × WordProgress) (he : e ∈ insertWP m k v) :
    e ∈ m ∨ e = (k, v) := by
  unfold insertWP at he
  split at he
  · rcases List.mem_map.mp he with ⟨a, ha, hae⟩
    by_cases hk : a.1 = k
    · right
      rw [← hae]
      simp [hk]
    · left
      rw [← hae]
      simpa [hk] using ha
  · rcases List.mem_append.mp he with h | h
    · exact Or.inl h
    · right
      simpa using h

theorem lookupWP_foldl_fresh (l : List VocabEntry) (m : WPMap) (now : Int)
    (k : String) :
    lookupWP
      (l.foldl (fun m w => insertWP m w.italian (freshProgress w.italian now)) m)
      k =
      if k ∈ l.map (·.italian) then some (freshProgress k now)
      else lookupWP m k := by
  induction l generalizing m with
  | nil => simp
  | cons w t ih =>
    simp only [List.foldl_cons, ih, List.map_cons, List.mem_cons]
    by_cases hk : k ∈ t.map (·.italian)
    · rw [if_pos hk, if_pos (Or.inr hk)]
    · rw [if_neg hk, lookupWP_insertWP]
      by_cases hw : k = w.italian
      · subst hw
        rw [if_pos rfl, if_pos (Or.inl rfl)]
      · rw [if_neg hw, if_neg (by tauto)]

/-! ### The stable sort selects the first minimum -/

/-- Specification-side selection: the first element of the list whose
key attains the minimum (ties keep the earlier element). -/
def firstMinBy {α β : Type} [LinearOrder β] (key : α → β) : List α → Option α
  | [] => none
  | a :: l =>
    match firstMinBy key l with
    | none => some a
    | some b => if key b < key a then some b else some a

theorem head?_sortKeyInsert {α β : Type} [LinearOrder β] (key : α → β)
    (a : α) (l : List α) :
    (sortKeyInsert key a l).head? =
      some (match l.head? with
            | none => a
            | some b => if key a ≤ key b then a else b) := by
  cases l with
  | nil => rfl
  | cons b t =>
    simp only [sortKeyInsert, List.head?_cons]
    by_cases h : key a ≤ key b
    · rw [if_pos h]
      simp [h]
    · rw [if_neg h]
      simp [h]

theorem head?_sortByKey {α β : Type} [LinearOrder β] (key : α → β)
    (l : List α) :
    (sortByKey key l).head? = firstMinBy key l := by
  induction l with
  | nil => rfl
  | cons a t ih =>
    simp only [sortByKey, firstMinBy, head?_sortKeyInsert, ← ih]
    cases h : (sortByKey key t).head? with
    | none => simp
    | some b =>
      simp only
      by_cases hab : key a ≤ key b
      · rw [if_pos hab, if_neg (not_lt.mpr hab)]
      · rw [if_neg hab, if_pos (not_le.mp hab)]

theorem mem_sortKeyInsert {α β : Type} [LinearOrder β] (key : α → β)
    (a x : α) (l : List α) :
    x ∈ sortKeyInsert key a l ↔ x = a ∨ x ∈ l := by
  induction l with
  | nil => simp [sortKeyInsert]
  | cons b t ih =>
    simp only [sortKeyInsert]
    by_cases h : key a ≤ key b
    · rw [if_pos h]
      simp [or_comm, or_assoc, or_left_comm]
    · rw [if_neg h]
      simp [ih]
      tauto

theorem mem_sortByKey {α β : Type} [LinearOrder β] (key : α → β)
    (x : α) (l : List α) :
    x ∈ sortByKey key l ↔ x ∈ l := by
  induction l with
  | nil => rfl
  | cons a t ih =>
    simp [sortByKey, mem_sortKeyInsert, ih]

theorem firstMinBy_isSome {α β : Type} [LinearOrder β] (key : α → β)
    (a : α) (l : List α) :
    (firstMinBy key (a :: l)).isSome := by
  simp only [firstMinBy]
  cases firstMinBy key l with
  | none => simp
  | some b =>
    by_cases h : key b < key a
    · simp [h]
    · simp [h]

theorem firstMinBy_mem {α β : Type} [LinearOrder β] (key : α → β)
    (l : List α) (a : α) (h : firstMinBy key l = some a) : a ∈ l := by
  induction l with
  | nil => simp [firstMinBy] at h
  | cons x t ih =>
    cases hm : firstMinBy key t with
    | none =>
      simp only [firstMinBy, hm] at h
      simp at h
      simp [h]
    | some b =>
      simp only [firstMinBy, hm] at h
      by_cases hc : key b < key x
      · rw [if_pos hc] at h
        cases h
        exact List.mem_cons_of_mem _ (ih hm)
      · rw [if_neg hc] at h
        cases h
        exact List.mem_cons_self _ _

theorem firstMinBy_eq_none {α β : Type} [LinearOrder β] (key : α → β)
    (l : List α) : firstMinBy key l = none ↔ l = [] := by
  cases l with
  | nil => simp [firstMinBy]
  | cons a t =>
    constructor
    · intro h
      have := firstMinBy_isSome key a t
      rw [h] at this
      simp at this
    · intro h
      exact absurd h (List.cons_ne_nil _ _)

theorem firstMinBy_le {α β : Type} [LinearOrder β] (key : α → β)
    (l : List α) (a : α) (h : firstMinBy key l = some a) :
    ∀ b ∈ l, key a ≤ key b := by
  induction l generalizing a with
  | nil => simp [firstMinBy] at h
  | cons x t ih =>
    cases hm : firstMinBy key t with
    | none =>
      have ht : t = [] := (firstMinBy_eq_none key t).mp hm
      subst ht
      simp only [firstMinBy] at h
      cases h
      simp
    | some c =>
      simp only [firstMinBy, hm] at h
      by_cases hc : key c < key x
      · rw [if_pos hc] at h
        obtain rfl : c = a := by injection h
        intro b hb
        rcases List.mem_cons.mp hb with hb | hb
        · subst hb
          exact le_of_lt hc
        · exact ih _ hm b hb
      · rw [if_neg hc] at h
        obtain rfl : x = a := by injection h
        intro b hb
        rcases List.mem_cons.mp hb with hb | hb
        · subst hb
          exact le_rfl
        · exact le_trans (not_lt.mp hc) (ih _ hm b hb)

theorem length_insertWP_new (m : WPMap) (k : String) (v : WordProgress)
    (h : m.find? (fun e => e.1 == k) = none) :
    (insertWP m k v).length = m.length + 1 := by
  unfold insertWP
  rw [if_neg (by simp [h])]
  simp

theorem length_foldl_fresh (l : List VocabEntry) (m : WPMap) (now : Int)
    (hnew : ∀ w ∈ l, m.find? (fun e => e.1 == w.italian) = none)
    (hnd : (l.map (·.italian)).Nodup) :
    (l.foldl (fun m w => insertWP m w.italian (freshProgress w.italian now))
        m).length = m.length + l.length := by
  induction l generalizing m with
  | nil => simp
  | cons w t ih =>
    simp only [List.foldl_cons]
    have hw : m.find? (fun e => e.1 == w.italian) = none :=
      hnew w (List.mem_cons_self _ _)
    have hins : insertWP m w.italian (freshProgress w.italian now) =
        m ++ [(w.italian, freshProgress w.italian now)] := by
      unfold insertWP
      rw [if_neg (by simp [hw])]
    simp only [List.map_cons, List.nodup_cons] at hnd
    rw [ih _ ?hnew hnd.2, hins]
    · simp
      omega
    case hnew =>
      intro u hu
      rw [hins, List.find?_append, hnew u (List.mem_cons_of_mem _ hu)]
      have hne : u.italian ≠ w.italian := by
        intro hc
        exact hnd.1 (by rw [← hc]; exact List.mem_map_of_mem _ hu)
      have hb : (w.italian == u.italian) = false := by
        simp
        exact Ne.symm hne
      simp [List.find?, hb]

theorem mem_foldl_fresh (l : List VocabEntry) (m : WPMap) (now : Int)
    (e : String × WordProgress)
    (he : e ∈ l.foldl
        (fun m w => insertWP m w.italian (freshProgress w.italian now)) m) :
    e ∈ m ∨ ∃ w ∈ l, e = (w.italian, freshProgress w.italian now) := by
  induction l generalizing m with
  | nil => exact Or.inl he
  | cons w t ih =>
    simp only [List.foldl_cons] at he
    rcases ih _ he with h | ⟨u, hu, hue⟩
    · rcases mem_insertWP _ _ _ _ h with h' | h'
      · exact Or.inl h'
      · exact Or.inr ⟨w, List.mem_cons_self _ _, h'⟩
    · exact Or.inr ⟨u, List.mem_cons_of_mem _ hu, hue⟩

/-! ### The per-word progress invariant (spec P2) -/

/-- P2 as a predicate on one record: the counters are consistent and
accuracy is their exact quotient (0 before any attempt). -/
def ProgressOK (p : WordProgress) : Prop :=
  p.correct ≤ p.attempts ∧
  p.accuracy =
    (if p.attempts = 0 then 0 else (p.correct : ℚ) / (p.attempts : ℚ))

/-- P2 lifted to the whole record map. -/
def MapOK (m : WPMap) : Prop :=
  ∀ k p, lookupWP m k = some p → ProgressOK p

theorem progressOK_fresh (w : String) (now : Int) :
    ProgressOK (freshProgress w now) := by
  unfold ProgressOK
  refine ⟨le_rfl, ?_⟩
  simp [freshProgress]

theorem mapOK_insertWP (m : WPMap) (k : String) (v : WordProgress)
    (hm : MapOK m) (hv : ProgressOK v) : MapOK (insertWP m k v) := by
  intro k' p hp
  rw [lookupWP_insertWP] at hp
  by_cases hk : k' = k
  · rw [if_pos hk] at hp
    cases hp
    exact hv
  · rw [if_neg hk] at hp
    exact hm k' p hp

theorem mapOK_expandLoop (L : List Nat) (vocab : List VocabEntry)
    (idx now : Int) (m : WPMap) (hm : MapOK m) :
    MapOK (L.foldl
      (fun (m : WPMap) (i : Nat) =>
        match getEntry? vocab (idx + (i : Int)) with
        | some w => insertWP m w.italian (freshProgress w.italian now)
        | none => m)
      m) := by
  induction L generalizing m with
  | nil => exact hm
  | cons i t ih =>
    rw [List.foldl_cons]
    apply ih
    cases getEntry? vocab (idx + (i : Int)) with
    | none => exact hm
    | some w => exact mapOK_insertWP _ _ _ hm (progressOK_fresh _ _)

/-- States reachable from Initialize by RecordOutcome and Expand calls
against a fixed vocabulary. -/
inductive ReachableState (vocab : List VocabEntry) : SmartLearningState → Prop where
  | init : ∀ poolSize now, ReachableState vocab (initializeProgress vocab poolSize now)
  | record : ∀ s w b now, ReachableState vocab s →
      ReachableState vocab (updateWordProgress s w b now)
  | expand : ∀ s poolSize now, ReachableState vocab s →
      ReachableState vocab (expandVocabulary s vocab poolSize now)

/-! ### Sample data for witnesses and counterexamples -/

/-- Ten sample vocabulary entries with distinct keys. -/
def sampleVocab10 : List VocabEntry :=
  [⟨"uno", "one"⟩, ⟨"due", "two"⟩, ⟨"tre", "three"⟩, ⟨"quattro", "four"⟩,
   ⟨"cinque", "five"⟩, ⟨"sei", "six"⟩, ⟨"sette", "seven"⟩,
   ⟨"otto", "eight"⟩, ⟨"nove", "nine"⟩, ⟨"dieci", "ten"⟩]

/-- A state tracking one mastered word at 4 of 5 correct. -/
def demoMasteredState : SmartLearningState :=
  { currentWordIndex := 1
    wordProgress :=
      [("ciao",
        { word := "ciao", attempts := 5, correct := 4, accuracy := 4/5,
          lastSeen := 0, masteryLevel := .mastered, introducedAt := 0 })]
    sessionStarted := 0
    totalWordsIntroduced := 1 }

/-- A state with an empty record map. -/
def demoEmptyState : SmartLearningState :=
  { currentWordIndex := 0, wordProgress := [], sessionStarted := 0,
    totalWordsIntroduced := 0 }

/-- Five consecutive correct answers for one word (Scenario B). -/
def answerCorrectFiveTimes (s : SmartLearningState) (w : String) :
    SmartLearningState :=
  updateWordProgress (updateWordProgress (updateWordProgress
    (updateWordProgress (updateWordProgress s w true 1) w true 2)
    w true 3) w true 4) w true 5

/-- Shared characterization of the record stored by updateWordProgress. -/
theorem updateWordProgress_lookup (s : SmartLearningState) (w : String)
    (b : Bool) (now : Int) :
    ∃ p, lookupWP (updateWordProgress s w b now).wordProgress w = some p ∧
      p.attempts =
        ((lookupWP s.wordProgress w).getD (freshProgress w now)).attempts + 1 ∧
      p.correct =
        ((lookupWP s.wordProgress w).getD (freshProgress w now)).correct +
          (if b then 1 else 0) ∧
      p.accuracy = (p.correct : ℚ) / (p.attempts : ℚ) ∧
      p.masteryLevel =
        (if p.attempts ≥ 5 ∧ p.accuracy ≥ 0.8 then MasteryLevel.mastered
         else if p.attempts ≥ 3 ∧ p.accuracy ≥ 0.6 then MasteryLevel.practiced
         else ((lookupWP s.wordProgress w).getD
           (freshProgress w now)).masteryLevel) :=
  ⟨_, by rw [updateWordProgress, lookupWP_insertWP, if_pos rfl],
    rfl, rfl, rfl, rfl⟩

/-! ### C1 -/

/-- C1: after RecordOutcome, the stored record carries the incremented
counters, the recomputed accuracy, and a mastery level determined by the
resulting counters: mastered when resulting attempts >= 5 and accuracy
>= 0.8, else practiced when resulting attempts >= 3 and accuracy >= 0.6,
else the level before the call; and a fresh word answered correctly five
times in a row ends mastered with accuracy 1. -/
theorem recordOutcome_mastery_rule :
    (∀ (s : SmartLearningState) (w : String) (b : Bool) (now : Int),
      ∃ p, lookupWP (updateWordProgress s w b now).wordProgress w = some p ∧
        p.attempts =
          ((lookupWP s.wordProgress w).getD (freshProgress w now)).attempts + 1 ∧
        p.correct =
          ((lookupWP s.wordProgress w).getD (freshProgress w now)).correct +
            (if b then 1 else 0) ∧
        p.accuracy = (p.correct : ℚ) / (p.attempts : ℚ) ∧
        p.masteryLevel =
          (if p.attempts ≥ 5 ∧ p.accuracy ≥ 0.8 then MasteryLevel.mastered
           else if p.attempts ≥ 3 ∧ p.accuracy ≥ 0.6 then
             MasteryLevel.practiced
           else
             ((lookupWP s.wordProgress w).getD
               (freshProgress w now)).masteryLevel)) ∧
    (∀ (s : SmartLearningState) (w : String),
      lookupWP s.wordProgress w = none →
      ∃ p, lookupWP (answerCorrectFiveTimes s w).wordProgress w = some p ∧
        p.masteryLevel = MasteryLevel.mastered ∧ p.accuracy = 1) := by
  constructor
  · exact updateWordProgress_lookup
  · intro s w h
    simp only [answerCorrectFiveTimes, updateWordProgress, lookupWP_insertWP,
      if_pos rfl, h, Option.getD_none, Option.getD_some, freshProgress]
    norm_num

/-- Witness for C1: the scenario run in the empty state. -/
theorem recordOutcome_mastery_rule_witness :
    ∃ p, lookupWP (answerCorrectFiveTimes demoEmptyState "ciao").wordProgress
        "ciao" = some p ∧
      p.masteryLevel = MasteryLevel.mastered ∧ p.accuracy = 1 :=
  recordOutcome_mastery_rule.2 demoEmptyState "ciao" rfl

/-! ### C2 -/

/-- The learning < practiced < mastered order, as a rank. -/
def levelRank : MasteryLevel → Nat
  | .learning => 0
  | .practiced => 1
  | .mastered => 2

/-- C2 counterexample: a word mastered at 4 of 5 correct is demoted to
practiced by one wrong answer (resulting accuracy 4/6 meets the
practiced test but no longer the mastered test), so a RecordOutcome
call can lower the mastery level. -/
theorem recordOutcome_demotion_cex :
    (lookupWP demoMasteredState.wordProgress "ciao").map (·.masteryLevel) =
      some MasteryLevel.mastered ∧
    (lookupWP (updateWordProgress demoMasteredState "ciao" false 7).wordProgress
        "ciao").map (·.masteryLevel) = some MasteryLevel.practiced := by
  constructor
  · rfl
  · rw [updateWordProgress, lookupWP_insertWP, if_pos rfl]
    have h5 : lookupWP demoMasteredState.wordProgress "ciao" =
        some { word := "ciao", attempts := 5, correct := 4, accuracy := 4/5,
               lastSeen := 0, masteryLevel := .mastered, introducedAt := 0 } := rfl
    rw [h5]
    norm_num

/-- C2 amended: a single RecordOutcome call never demotes a word to
learning, and the only possible demotion is mastered to practiced,
exactly when the resulting counters pass the practiced test but fail
the mastered test. -/
theorem recordOutcome_demotion_only_to_practiced
    (s : SmartLearningState) (w : String) (b : Bool) (now : Int)
    (p : WordProgress)
    (hp : lookupWP (updateWordProgress s w b now).wordProgress w = some p)
    (hlt : levelRank p.masteryLevel <
      levelRank (((lookupWP s.wordProgress w).getD
        (freshProgress w now)).masteryLevel)) :
    ((lookupWP s.wordProgress w).getD (freshProgress w now)).masteryLevel =
        MasteryLevel.mastered ∧
    p.masteryLevel = MasteryLevel.practiced ∧
    3 ≤ p.attempts ∧ (0.6 : ℚ) ≤ p.accuracy ∧
    ¬(5 ≤ p.attempts ∧ (0.8 : ℚ) ≤ p.accuracy) := by
  obtain ⟨q, hq, e1, e2, e3, e4⟩ := updateWordProgress_lookup s w b now
  rw [hp] at hq
  obtain rfl : p = q := Option.some.inj hq
  by_cases h1 : p.attempts ≥ 5 ∧ p.accuracy ≥ 0.8
  · rw [if_pos h1] at e4
    rw [e4] at hlt
    cases hl : ((lookupWP s.wordProgress w).getD
        (freshProgress w now)).masteryLevel <;>
      rw [hl] at hlt <;> simp [levelRank] at hlt
  · by_cases h2 : p.attempts ≥ 3 ∧ p.accuracy ≥ 0.6
    · rw [if_neg h1, if_pos h2] at e4
      rw [e4] at hlt
      have hm : ((lookupWP s.wordProgress w).getD
          (freshProgress w now)).masteryLevel = MasteryLevel.mastered := by
        cases hl : ((lookupWP s.wordProgress w).getD
            (freshProgress w now)).masteryLevel with
        | learning =>
          rw [hl] at hlt
          exact absurd hlt (by norm_num [levelRank])
        | practiced =>
          rw [hl] at hlt
          exact absurd hlt (by norm_num [levelRank])
        | mastered => rfl
      exact ⟨hm, e4, h2.1, h2.2, h1⟩
    · rw [if_neg h1, if_neg h2] at e4
      rw [e4] at hlt
      exact absurd hlt (lt_irrefl _)

/-- The record demoMasteredState holds after one wrong answer at time 7. -/
def demotedCiao : WordProgress :=
  { word := "ciao", attempts := 6, correct := 4, accuracy := 4/6,
    lastSeen := 7, masteryLevel := .practiced, introducedAt := 0 }

/-- Witness for the amended C2: the counterexample state instantiates it. -/
theorem recordOutcome_demotion_only_to_practiced_witness :
    ((lookupWP demoMasteredState.wordProgress "ciao").getD
        (freshProgress "ciao" 7)).masteryLevel = MasteryLevel.mastered ∧
    demotedCiao.masteryLevel = MasteryLevel.practiced ∧
    3 ≤ demotedCiao.attempts ∧ (0.6 : ℚ) ≤ demotedCiao.accuracy ∧
    ¬(5 ≤ demotedCiao.attempts ∧ (0.8 : ℚ) ≤ demotedCiao.accuracy) :=
  recordOutcome_demotion_only_to_practiced demoMasteredState "ciao" false 7
    demotedCiao
    (by
      rw [updateWordProgress, lookupWP_insertWP, if_pos rfl]
      have hD : lookupWP demoMasteredState.wordProgress "ciao" =
          some { word := "ciao", attempts := 5, correct := 4, accuracy := 4/5,
                 lastSeen := 0, masteryLevel := .mastered,
                 introducedAt := 0 } := rfl
      rw [hD]
      simp only [Option.getD_some, demotedCiao]
      norm_num)
    (by
      have hD : lookupWP demoMasteredState.wordProgress "ciao" =
          some { word := "ciao", attempts := 5, correct := 4, accuracy := 4/5,
                 lastSeen := 0, masteryLevel := .mastered,
                 introducedAt := 0 } := rfl
      rw [hD]
      simp [demotedCiao, levelRank])

/-! ### C9 -/

/-- C9: Initialize admits min(poolSize, length) words, the prefix of the
vocabulary, each fresh (attempts 0, correct 0, accuracy 0, lastSeen 0,
learning), sets currentWordIndex = totalWordsIntroduced to that count,
yields an empty pool on an empty vocabulary, and on 10 words with
poolSize 8 gives index 8, 8 entries, all learning. -/
theorem initializeProgress_spec (vocab : List VocabEntry)
    (poolSize now : Int) :
    (initializeProgress vocab poolSize now).currentWordIndex =
        min poolSize (vocab.length : Int) ∧
    (initializeProgress vocab poolSize now).totalWordsIntroduced =
        min poolSize (vocab.length : Int) ∧
    (∀ k, lookupWP (initializeProgress vocab poolSize now).wordProgress k =
        if k ∈ (vocab.take (min poolSize (vocab.length : Int)).toNat).map
            (·.italian)
        then some (freshProgress k now) else none) ∧
    (vocab = [] →
      (initializeProgress vocab poolSize now).wordProgress = []) ∧
    ((vocab.map (·.italian)).Nodup → vocab.length = 10 → poolSize = 8 →
      (initializeProgress vocab poolSize now).currentWordIndex = 8 ∧
      (initializeProgress vocab poolSize now).totalWordsIntroduced = 8 ∧
      (initializeProgress vocab poolSize now).wordProgress.length = 8 ∧
      ∀ e ∈ (initializeProgress vocab poolSize now).wordProgress,
        e.2.masteryLevel = MasteryLevel.learning) := by
  refine ⟨rfl, rfl, ?_, ?_, ?_⟩
  · intro k
    simp only [initializeProgress]
    rw [lookupWP_foldl_fresh]
    have hnil : lookupWP [] k = none := rfl
    rw [hnil]
  · intro h
    subst h
    simp [initializeProgress]
  · intro hnd h10 h8
    subst h8
    have hidx : min (8 : Int) ((vocab.length : Nat) : Int) = 8 := by
      rw [h10]
      rfl
    have htake : ((vocab.take (min (8 : Int)
        ((vocab.length : Nat) : Int)).toNat).map (·.italian)).Nodup := by
      rw [List.map_take]
      exact (List.take_sublist _ _).nodup hnd
    refine ⟨by simp [initializeProgress, hidx], by simp [initializeProgress, hidx], ?_, ?_⟩
    · simp only [initializeProgress]
      rw [length_foldl_fresh _ _ _ (by intro w hw; rfl) htake]
      simp [hidx, h10]
    · intro e he
      simp only [initializeProgress] at he
      rcases mem_foldl_fresh _ _ _ _ he with h | ⟨u, hu, hue⟩
      · exact absurd h (List.not_mem_nil e)
      · rw [hue]
        rfl

/-- Witness for C9: the 10-entry sample vocabulary with poolSize 8. -/
theorem initializeProgress_spec_witness :
    (initializeProgress sampleVocab10 8 0).currentWordIndex = 8 ∧
    (initializeProgress sampleVocab10 8 0).totalWordsIntroduced = 8 ∧
    (initializeProgress sampleVocab10 8 0).wordProgress.length = 8 ∧
    ∀ e ∈ (initializeProgress sampleVocab10 8 0).wordProgress,
      e.2.masteryLevel = MasteryLevel.learning :=
  (initializeProgress_spec sampleVocab10 8 0).2.2.2.2 (by decide) rfl rfl

/-! ### C10 -/

theorem filter_masteryLevel_partition (l : List WordProgress) :
    (l.filter (fun p => p.masteryLevel == MasteryLevel.learning)).length +
    (l.filter (fun p => p.masteryLevel == MasteryLevel.practiced)).length +
    (l.filter (fun p => p.masteryLevel == MasteryLevel.mastered)).length =
      l.length := by
  induction l with
  | nil => rfl
  | cons p t ih =>
    cases h : p.masteryLevel <;> simp [List.filter_cons, h] <;> omega

theorem foldl_accuracy_sum (l : List WordProgress) :
    l.foldl (fun sum p => sum + p.accuracy) 0 = (l.map (·.accuracy)).sum := by
  rw [List.sum_eq_foldl, List.foldl_map]

/-- C10: GetStats reports total = number of tracked words, the three
level counts partition the total, and overallAccuracy is the unweighted
arithmetic mean of the tracked accuracy fields (0 on an empty pool);
on accuracies [1, 1/2, 0, 4/5] the mean is 0.575 = 23/40. -/
theorem getProgressStats_spec (s : SmartLearningState) :
    (getProgressStats s).total = (s.wordProgress.map (·.2)).length ∧
    (getProgressStats s).learning + (getProgressStats s).practiced +
        (getProgressStats s).mastered = (getProgressStats s).total ∧
    (getProgressStats s).overallAccuracy =
      (if (s.wordProgress.map (·.2)).length = 0 then 0
       else ((s.wordProgress.map (·.2)).map (·.accuracy)).sum /
         ((s.wordProgress.map (·.2)).length : ℚ)) ∧
    ((s.wordProgress.map (·.2)).map (·.accuracy) = [1, 1/2, 0, 4/5] →
      (getProgressStats s).overallAccuracy = 23/40) := by
  have hacc : (getProgressStats s).overallAccuracy =
      (if (s.wordProgress.map (·.2)).length = 0 then 0
       else ((s.wordProgress.map (·.2)).map (·.accuracy)).sum /
         ((s.wordProgress.map (·.2)).length : ℚ)) := by
    simp only [getProgressStats]
    rcases Nat.eq_zero_or_pos (s.wordProgress.map (·.2)).length with h | h
    · rw [if_neg (by omega), if_pos h]
    · rw [if_pos h, if_neg (by omega), foldl_accuracy_sum]
  refine ⟨rfl, filter_masteryLevel_partition _, hacc, ?_⟩
  intro hvals
  have hlen : (s.wordProgress.map (·.2)).length = 4 := by
    have := congrArg List.length hvals
    simpa using this
  rw [hacc, if_neg (by omega), hvals, hlen]
  norm_num

/-- A four-word pool with accuracies 1, 1/2, 0, 4/5 (Scenario E). -/
def demoStatsState : SmartLearningState :=
  { currentWordIndex := 4
    wordProgress :=
      [("a", { word := "a", attempts := 1, correct := 1, accuracy := 1,
               lastSeen := 0, masteryLevel := .learning, introducedAt := 0 }),
       ("b", { word := "b", attempts := 2, correct := 1, accuracy := 1/2,
               lastSeen := 0, masteryLevel := .learning, introducedAt := 0 }),
       ("c", { word := "c", attempts := 1, correct := 0, accuracy := 0,
               lastSeen := 0, masteryLevel := .learning, introducedAt := 0 }),
       ("d", { word := "d", attempts := 5, correct := 4, accuracy := 4/5,
               lastSeen := 0, masteryLevel := .practiced, introducedAt := 0 })]
    sessionStarted := 0
    totalWordsIntroduced := 4 }

/-- Witness for C10: a four-word pool with those exact accuracies. -/
theorem getProgressStats_spec_witness :
    (getProgressStats demoStatsState).overallAccuracy = 23/40 :=
  (getProgressStats_spec demoStatsState).2.2.2 (by norm_num [demoStatsState])

/-! ### C5 -/

/-- C5: ShouldExpand is true exactly when the vocabulary is not yet
exhausted and at least 70 percent of the tracked words are practiced or
mastered (never-answered tracked words count in the denominator at
learning level); on an empty record map the JS NaN comparison and the
rational 0/0 = 0 convention both give false. -/
theorem shouldExpandVocabulary_spec (s : SmartLearningState)
    (vocab : List VocabEntry) :
    shouldExpandVocabulary s vocab = true ↔
      (s.currentWordIndex < (vocab.length : Int) ∧
       (0.7 : ℚ) ≤
         (((s.wordProgress.map (·.2)).filter (fun p =>
             decide (p.masteryLevel = MasteryLevel.practiced ∨
               p.masteryLevel = MasteryLevel.mastered))).length : ℚ) /
           ((s.wordProgress.map (·.2)).length : ℚ)) := by
  have hpred : ∀ p : WordProgress,
      (p.masteryLevel == MasteryLevel.practiced ||
        p.masteryLevel == MasteryLevel.mastered) =
      decide (p.masteryLevel = MasteryLevel.practiced ∨
        p.masteryLevel = MasteryLevel.mastered) := by
    intro p
    cases p.masteryLevel <;> rfl
  unfold shouldExpandVocabulary
  by_cases h : s.currentWordIndex ≥ (vocab.length : Int)
  · rw [if_pos h]
    simp
    intro hlt
    omega
  · rw [if_neg h]
    simp only [hpred, decide_eq_true_eq]
    constructor
    · intro hge
      exact ⟨by omega, hge⟩
    · intro ⟨_, hge⟩
      exact hge

/-! ### C8 -/

/-- C8: in every state reachable from Initialize by RecordOutcome and
Expand calls, every tracked record has correct <= attempts (both Nat,
hence nonnegative) and accuracy equal to correct/attempts, or 0 when
attempts = 0 -- accuracy is recomputed on every update, never stale. -/
theorem reachable_progress_invariant (vocab : List VocabEntry)
    (s : SmartLearningState) (h : ReachableState vocab s) :
    MapOK s.wordProgress := by
  induction h with
  | init poolSize now =>
    intro k p hp
    simp only [initializeProgress] at hp
    rw [lookupWP_foldl_fresh] at hp
    split at hp
    · cases hp
      exact progressOK_fresh _ _
    · exact absurd hp (by simp [lookupWP])
  | record s w b now _ ih =>
    have h0 : ProgressOK ((lookupWP s.wordProgress w).getD
        (freshProgress w now)) := by
      cases hq : lookupWP s.wordProgress w with
      | none => simpa using progressOK_fresh w now
      | some q => simpa using ih w q hq
    apply mapOK_insertWP _ _ _ ih
    unfold ProgressOK
    constructor
    · have := h0.1
      cases b <;> simp <;> omega
    · simp

  | expand s poolSize now _ ih =>
    simp only [expandVocabulary]
    exact mapOK_expandLoop _ _ _ _ _ ih

/-- Witness for C8: a concrete reachable state after one recorded
answer; its tracked record for "uno" satisfies the invariant. -/
theorem reachable_progress_invariant_witness :
    ∃ p, lookupWP (updateWordProgress (initializeProgress sampleVocab10 8 0)
        "uno" true 1).wordProgress "uno" = some p ∧
      p.correct ≤ p.attempts ∧
      p.accuracy =
        (if p.attempts = 0 then 0 else (p.correct : ℚ) / (p.attempts : ℚ)) := by
  obtain ⟨p, hp, -, -, -, -⟩ :=
    updateWordProgress_lookup (initializeProgress sampleVocab10 8 0) "uno" true 1
  exact ⟨p, hp,
    reachable_progress_invariant sampleVocab10 _
      (ReachableState.record _ "uno" true 1 (ReachableState.init 8 0)) "uno" p hp⟩

/-! ### Expansion lemmas -/

/-- The admission loop of expandVocabulary equals a fold over the slice
of the vocabulary at positions [idx, idx + cnt). -/
theorem expandLoop_slice (vocab : List VocabEntry) (idx : Int) (h0 : 0 ≤ idx)
    (cnt : Nat) (hle : idx.toNat + cnt ≤ vocab.length) (m : WPMap)
    (now : Int) :
    (List.range cnt).foldl
      (fun (m : WPMap) (i : Nat) =>
        match getEntry? vocab (idx + (i : Int)) with
        | some w => insertWP m w.italian (freshProgress w.italian now)
        | none => m) m =
    ((vocab.drop idx.toNat).take cnt).foldl
      (fun m w => insertWP m w.italian (freshProgress w.italian now)) m := by
  induction cnt with
  | zero => simp
  | succ n ih =>
    have hlt : idx.toNat + n < vocab.length := by omega
    have hge : getEntry? vocab (idx + (n : Int)) =
        some (vocab.get ⟨idx.toNat + n, hlt⟩) := by
      unfold getEntry?
      rw [if_pos (by omega)]
      have h2 : (idx + (n : Int)).toNat = idx.toNat + n := by omega
      rw [h2, List.get?_eq_get hlt]
    have htake : (vocab.drop idx.toNat).take (n + 1) =
        (vocab.drop idx.toNat).take n ++ [vocab.get ⟨idx.toNat + n, hlt⟩] := by
      rw [List.take_succ]
      congr 1
      have hd : (vocab.drop idx.toNat).get? n = vocab.get? (idx.toNat + n) := by
        rw [List.get?_eq_getElem?, List.getElem?_drop, ← List.get?_eq_getElem?]
      rw [← List.get?_eq_getElem?, hd, List.get?_eq_get hlt]
      rfl
    rw [List.range_succ, List.foldl_append, ih (by omega), htake,
      List.foldl_append]
    simp [hge]

/-- A sequence of Expand calls, each with its own poolSize and time. -/
def expandSeq (vocab : List VocabEntry) (s : SmartLearningState)
    (calls : List (Int × Int)) : SmartLearningState :=
  calls.foldl (fun s c => expandVocabulary s vocab c.1 c.2) s

theorem expandVocabulary_idx_le (s : SmartLearningState)
    (vocab : List VocabEntry) (poolSize now : Int)
    (_hle : s.currentWordIndex ≤ (vocab.length : Int)) :
    (expandVocabulary s vocab poolSize now).currentWordIndex ≤
      (vocab.length : Int) := by
  have h1 : min 3 (min ((vocab.length : Int) - s.currentWordIndex)
      (poolSize - (s.wordProgress.length : Int))) ≤
      (vocab.length : Int) - s.currentWordIndex :=
    le_trans (min_le_right _ _) (min_le_left _ _)
  show s.currentWordIndex + _ ≤ _
  omega

theorem expandSeq_idx_le (vocab : List VocabEntry)
    (calls : List (Int × Int)) :
    ∀ s : SmartLearningState, s.currentWordIndex ≤ (vocab.length : Int) →
      (expandSeq vocab s calls).currentWordIndex ≤ (vocab.length : Int) := by
  induction calls with
  | nil => exact fun s h => h
  | cons c t ih =>
    intro s h
    exact ih _ (expandVocabulary_idx_le s vocab c.1 c.2 h)

/-! ### C3 -/

/-- A state tracking two fresh words with currentWordIndex 2. -/
def cexExpandState : SmartLearningState :=
  { currentWordIndex := 2
    wordProgress := [("ciao", freshProgress "ciao" 0),
                     ("cane", freshProgress "cane" 0)]
    sessionStarted := 0
    totalWordsIntroduced := 2 }

/-- C3 counterexample: calling Expand with poolSize 0 on a state that
tracks 2 words makes newWordCount = -2; no words are admitted but
currentWordIndex decreases from 2 to 0, so an Expand call is not
index-non-decreasing and a non-positive newWordCount does not return
the state unchanged. -/
theorem expandVocabulary_decreasing_cex :
    cexExpandState.currentWordIndex ≤ (sampleVocab10.length : Int) ∧
    min 3 (min ((sampleVocab10.length : Int) - cexExpandState.currentWordIndex)
      (0 - (cexExpandState.wordProgress.length : Int))) ≤ 0 ∧
    (expandVocabulary cexExpandState sampleVocab10 0 0).currentWordIndex <
      cexExpandState.currentWordIndex ∧
    expandVocabulary cexExpandState sampleVocab10 0 0 ≠ cexExpandState := by
  refine ⟨by decide, by decide, by decide, ?_⟩
  intro h
  have h2 := congrArg SmartLearningState.currentWordIndex h
  revert h2
  decide

/-- C3 amended: across any sequence of Expand calls currentWordIndex
never exceeds length(vocabulary); a single call is index-non-decreasing
provided its poolSize is at least the current number of tracked words;
a call with newWordCount = 0 returns the state unchanged; a call with
newWordCount <= 0 admits no words, but when newWordCount is negative it
decreases currentWordIndex and totalWordsIntroduced by its absolute
value instead of leaving them unchanged. -/
theorem expandVocabulary_monotone (s : SmartLearningState)
    (vocab : List VocabEntry) (poolSize now : Int) :
    ((s.wordProgress.length : Int) ≤ poolSize →
      s.currentWordIndex ≤ (vocab.length : Int) →
      s.currentWordIndex ≤
        (expandVocabulary s vocab poolSize now).currentWordIndex) ∧
    (s.currentWordIndex ≤ (vocab.length : Int) →
      (expandVocabulary s vocab poolSize now).currentWordIndex ≤
        (vocab.length : Int)) ∧
    (min 3 (min ((vocab.length : Int) - s.currentWordIndex)
        (poolSize - (s.wordProgress.length : Int))) = 0 →
      expandVocabulary s vocab poolSize now = s) ∧
    (min 3 (min ((vocab.length : Int) - s.currentWordIndex)
        (poolSize - (s.wordProgress.length : Int))) ≤ 0 →
      (expandVocabulary s vocab poolSize now).wordProgress =
        s.wordProgress) ∧
    (∀ calls : List (Int × Int),
      s.currentWordIndex ≤ (vocab.length : Int) →
      (expandSeq vocab s calls).currentWordIndex ≤ (vocab.length : Int)) := by
  refine ⟨?_, expandVocabulary_idx_le s vocab poolSize now, ?_, ?_,
    fun calls h => expandSeq_idx_le vocab calls s h⟩
  · intro hpool hlen
    have h0 : (0 : Int) ≤ min 3 (min ((vocab.length : Int) - s.currentWordIndex)
        (poolSize - (s.wordProgress.length : Int))) := by
      refine le_min (by norm_num) (le_min (by omega) (by omega))
    show s.currentWordIndex ≤ s.currentWordIndex + _
    omega
  · intro hcnt
    simp only [expandVocabulary, hcnt]
    simp
  · intro hcnt
    simp only [expandVocabulary]
    have h0 : (min 3 (min ((vocab.length : Int) - s.currentWordIndex)
        (poolSize - (s.wordProgress.length : Int)))).toNat = 0 := by omega
    rw [h0]
    simp

/-- A freshly initialized 8-word pool over the sample vocabulary. -/
def demoEightState : SmartLearningState :=
  initializeProgress sampleVocab10 8 0

/-- Witness for the amended C3: concrete Expand calls instantiate each
conjunct (a normal expansion, a zero-count no-op, a negative-count call
admitting nothing, and a call sequence staying within bounds). -/
theorem expandVocabulary_monotone_witness :
    demoEightState.currentWordIndex ≤
      (expandVocabulary demoEightState sampleVocab10 10 9).currentWordIndex ∧
    (expandVocabulary demoEightState sampleVocab10 10 9).currentWordIndex ≤
      (sampleVocab10.length : Int) ∧
    expandVocabulary demoEmptyState [] 0 0 = demoEmptyState ∧
    (expandVocabulary cexExpandState sampleVocab10 0 0).wordProgress =
      cexExpandState.wordProgress ∧
    (expandSeq sampleVocab10 demoEightState [(10, 9)]).currentWordIndex ≤
      (sampleVocab10.length : Int) :=
  ⟨(expandVocabulary_monotone demoEightState sampleVocab10 10 9).1
      (by decide) (by decide),
   (expandVocabulary_monotone demoEightState sampleVocab10 10 9).2.1
      (by decide),
   (expandVocabulary_monotone demoEmptyState [] 0 0).2.2.1 (by decide),
   (expandVocabulary_monotone cexExpandState sampleVocab10 0 0).2.2.2.1
      (by decide),
   (expandVocabulary_monotone demoEightState sampleVocab10 10 9).2.2.2.2
      [(10, 9)] (by decide)⟩

/-! ### C4 -/

/-- newWordCount as computed by expandVocabulary. -/
def newWordCountOf (s : SmartLearningState) (vocab : List VocabEntry)
    (poolSize : Int) : Int :=
  min 3 (min ((vocab.length : Int) - s.currentWordIndex)
             (poolSize - (s.wordProgress.length : Int)))

/-- The vocabulary slice at positions
[currentWordIndex, currentWordIndex + newWordCount). -/
def admittedSlice (s : SmartLearningState) (vocab : List VocabEntry)
    (poolSize : Int) : List VocabEntry :=
  (vocab.drop s.currentWordIndex.toNat).take
    (newWordCountOf s vocab poolSize).toNat

/-- C4: Expand computes newWordCount = min(3, min(remaining vocabulary,
poolSize - tracked words)), admits exactly the vocabulary entries at
positions [currentWordIndex, currentWordIndex + newWordCount) as fresh
records, leaves every other record untouched, advances both
currentWordIndex and totalWordsIntroduced by newWordCount, and from 8
tracked words at index 8 with poolSize 10 and at least 10 vocabulary
entries it admits 2 words, moving currentWordIndex to 10. -/
theorem expandVocabulary_spec (s : SmartLearningState)
    (vocab : List VocabEntry) (poolSize now : Int)
    (h0 : 0 ≤ s.currentWordIndex) :
    (expandVocabulary s vocab poolSize now).currentWordIndex =
      s.currentWordIndex + newWordCountOf s vocab poolSize ∧
    (expandVocabulary s vocab poolSize now).totalWordsIntroduced =
      s.totalWordsIntroduced + newWordCountOf s vocab poolSize ∧
    (admittedSlice s vocab poolSize).length =
      (newWordCountOf s vocab poolSize).toNat ∧
    (∀ k, lookupWP (expandVocabulary s vocab poolSize now).wordProgress k =
      if k ∈ (admittedSlice s vocab poolSize).map (·.italian)
      then some (freshProgress k now)
      else lookupWP s.wordProgress k) ∧
    (s.wordProgress.length = 8 → s.currentWordIndex = 8 → poolSize = 10 →
      10 ≤ (vocab.length : Int) →
      newWordCountOf s vocab poolSize = 2 ∧
      (expandVocabulary s vocab poolSize now).currentWordIndex = 10) := by
  have hcnt_le : newWordCountOf s vocab poolSize ≤
      (vocab.length : Int) - s.currentWordIndex :=
    le_trans (min_le_right _ _) (min_le_left _ _)
  refine ⟨rfl, rfl, ?_, ?_, ?_⟩
  · unfold admittedSlice
    rw [List.length_take, List.length_drop]
    omega
  · intro k
    show lookupWP ((List.range (newWordCountOf s vocab poolSize).toNat).foldl
      _ s.wordProgress) k = _
    rcases le_or_lt (newWordCountOf s vocab poolSize) 0 with hc | hc
    · have hz : (newWordCountOf s vocab poolSize).toNat = 0 := by omega
      unfold admittedSlice
      rw [hz]
      simp
    · have hle : s.currentWordIndex.toNat +
          (newWordCountOf s vocab poolSize).toNat ≤ vocab.length := by
        omega
      rw [expandLoop_slice vocab s.currentWordIndex h0 _ hle,
        lookupWP_foldl_fresh]
      rfl
  · intro h8 hidx hps hlen
    have hc : newWordCountOf s vocab poolSize = 2 := by
      unfold newWordCountOf
      rw [h8, hidx, hps]
      have h2 : min ((vocab.length : Int) - 8) (10 - (8 : Nat)) = 2 := by
        rw [min_eq_right (by push_cast; omega)]
        norm_num
      rw [h2]
      norm_num
    constructor
    · exact hc
    · show s.currentWordIndex + newWordCountOf s vocab poolSize = 10
      rw [hidx, hc]
      norm_num

/-- Witness for C4: the 8-word pool over the 10-entry sample vocabulary
with poolSize 10 admits exactly 2 words. -/
theorem expandVocabulary_spec_witness :
    newWordCountOf demoEightState sampleVocab10 10 = 2 ∧
    (expandVocabulary demoEightState sampleVocab10 10 9).currentWordIndex =
      10 :=
  (expandVocabulary_spec demoEightState sampleVocab10 10 9 (by decide)).2.2.2.2
    (by decide) rfl rfl (by decide)

/-! ### Selection lemmas -/

/-- Data-model invariant (spec section 3): every tracked record's word
field equals its key. -/
def WFKeys (m : WPMap) : Prop := ∀ e ∈ m, e.2.word = e.1

theorem lookupWP_word (m : WPMap) (k : String) (p : WordProgress)
    (hwf : WFKeys m) (h : lookupWP m k = some p) : p.word = k := by
  unfold lookupWP at h
  cases hf : m.find? (fun e => e.1 == k) with
  | none => rw [hf] at h; cases h
  | some e =>
    rw [hf] at h
    obtain rfl : e.2 = p := Option.some.inj h
    have h1 := List.find?_some hf
    have h2 : e ∈ m := List.mem_of_find?_eq_some hf
    rw [hwf e h2]
    exact eq_of_beq (by simpa using h1)

theorem effectiveProgress_word (s : SmartLearningState) (now : Int)
    (w : VocabEntry) (hwf : WFKeys s.wordProgress) :
    (effectiveProgress s now w).word = w.italian := by
  unfold effectiveProgress
  cases h : lookupWP s.wordProgress w.italian with
  | none => rfl
  | some p => exact lookupWP_word _ _ _ hwf h

theorem find?_key_of_nodup (l : List VocabEntry)
    (hnd : (l.map (·.italian)).Nodup) (w : VocabEntry) (hw : w ∈ l) :
    l.find? (fun x => x.italian == w.italian) = some w := by
  induction l with
  | nil => cases hw
  | cons a t ih =>
    simp only [List.map_cons, List.nodup_cons] at hnd
    by_cases ha : a.italian = w.italian
    · have haw : a = w := by
        rcases List.mem_cons.mp hw with h | h
        · exact h.symm
        · exact absurd (by rw [ha]; exact List.mem_map_of_mem _ h) hnd.1
      rw [List.find?_cons_of_pos _ (by simp [ha])]
      rw [haw]
    · have hwt : w ∈ t := by
        rcases List.mem_cons.mp hw with h | h
        · exact absurd (congrArg (·.italian) h.symm) ha
        · exact h
      rw [List.find?_cons_of_neg _ (by simp [ha]), ih hnd.2 hwt]

theorem availableWords_nodup (s : SmartLearningState)
    (vocab : List VocabEntry) (hnd : (vocab.map (·.italian)).Nodup) :
    ((availableWordsOf s vocab).map (·.italian)).Nodup := by
  unfold availableWordsOf
  rw [List.map_take]
  exact (List.take_sublist _ _).nodup hnd

theorem activeProgresses_backmap (s : SmartLearningState)
    (vocab : List VocabEntry) (now : Int) (hwf : WFKeys s.wordProgress)
    (hnd : (vocab.map (·.italian)).Nodup) (p : WordProgress)
    (hp : p ∈ activeProgresses s vocab now) :
    ∃ w, w ∈ availableWordsOf s vocab ∧ effectiveProgress s now w = p ∧
      (availableWordsOf s vocab).find? (fun x => x.italian == p.word) =
        some w := by
  obtain ⟨w, hw, hwp⟩ := List.mem_map.mp hp
  have hword : p.word = w.italian := by
    rw [← hwp]
    exact effectiveProgress_word s now w hwf
  refine ⟨w, hw, hwp, ?_⟩
  rw [hword]
  exact find?_key_of_nodup _ (availableWords_nodup s vocab hnd) w hw

theorem mem_levelBucket (s : SmartLearningState) (vocab : List VocabEntry)
    (now : Int) (lvl : MasteryLevel) (p : WordProgress) :
    p ∈ levelBucket s vocab now lvl ↔
      p ∈ activeProgresses s vocab now ∧ p.masteryLevel = lvl := by
  unfold levelBucket
  rw [List.mem_filter]
  simp

theorem mastered_nonempty_of_pools_empty (s : SmartLearningState)
    (vocab : List VocabEntry) (now : Int)
    (hA : availableWordsOf s vocab ≠ [])
    (hpool : practicePoolOf s vocab now = []) :
    levelBucket s vocab now MasteryLevel.mastered ≠ [] := by
  have hL : levelBucket s vocab now MasteryLevel.learning = [] := by
    by_contra hL
    unfold practicePoolOf at hpool
    rw [if_pos (by simpa using hL)] at hpool
    exact hL hpool
  have hP : levelBucket s vocab now MasteryLevel.practiced = [] := by
    unfold practicePoolOf at hpool
    rwa [if_neg (by simpa using hL)] at hpool
  obtain ⟨w, hw⟩ := List.exists_mem_of_ne_nil _ hA
  have hac : effectiveProgress s now w ∈ activeProgresses s vocab now :=
    List.mem_map_of_mem _ hw
  intro hM
  cases hml : (effectiveProgress s now w).masteryLevel with
  | learning =>
    have : effectiveProgress s now w ∈
        levelBucket s vocab now MasteryLevel.learning :=
      (mem_levelBucket _ _ _ _ _).mpr ⟨hac, hml⟩
    rw [hL] at this
    cases this
  | practiced =>
    have : effectiveProgress s now w ∈
        levelBucket s vocab now MasteryLevel.practiced :=
      (mem_levelBucket _ _ _ _ _).mpr ⟨hac, hml⟩
    rw [hP] at this
    cases this
  | mastered =>
    have : effectiveProgress s now w ∈
        levelBucket s vocab now MasteryLevel.mastered :=
      (mem_levelBucket _ _ _ _ _).mpr ⟨hac, hml⟩
    rw [hM] at this
    cases this

/-- Branch-by-branch characterization of selectNextWord on a non-empty
active prefix: the review branch returns the entry of the first
least-recently-seen mastered record, the practice branch the entry of
the first lowest-accuracy record of the practice pool, and the fallback
branch the entry of the fallback pick from the mastered bucket. -/
theorem selectNextWord_branches (s : SmartLearningState)
    (vocab : List VocabEntry) (reviewDraw : Bool) (j : Nat) (now : Int)
    (hwf : WFKeys s.wordProgress) (hnd : (vocab.map (·.italian)).Nodup)
    (hA : availableWordsOf s vocab ≠ []) :
    ((reviewDraw &&
        !(levelBucket s vocab now MasteryLevel.mastered).isEmpty) = true →
      ∃ p w, firstMinBy (·.lastSeen)
          (levelBucket s vocab now MasteryLevel.mastered) = some p ∧
        w ∈ availableWordsOf s vocab ∧ effectiveProgress s now w = p ∧
        selectNextWord s vocab reviewDraw j now = some w) ∧
    ((reviewDraw &&
        !(levelBucket s vocab now MasteryLevel.mastered).isEmpty) = false →
      practicePoolOf s vocab now ≠ [] →
      ∃ p w, firstMinBy (·.accuracy) (practicePoolOf s vocab now) = some p ∧
        w ∈ availableWordsOf s vocab ∧ effectiveProgress s now w = p ∧
        selectNextWord s vocab reviewDraw j now = some w) ∧
    ((reviewDraw &&
        !(levelBucket s vocab now MasteryLevel.mastered).isEmpty) = false →
      practicePoolOf s vocab now = [] →
      ∃ p w, p ∈ levelBucket s vocab now MasteryLevel.mastered ∧
        w ∈ availableWordsOf s vocab ∧ effectiveProgress s now w = p ∧
        selectNextWord s vocab reviewDraw j now = some w) := by
  have hA' : ¬((availableWordsOf s vocab).isEmpty = true) := by
    simpa [List.isEmpty_iff] using hA
  refine ⟨?_, ?_, ?_⟩
  · intro hsr
    have hM : levelBucket s vocab now MasteryLevel.mastered ≠ [] := by
      intro h
      rw [h] at hsr
      simp at hsr
    have hps : (firstMinBy (·.lastSeen)
        (levelBucket s vocab now MasteryLevel.mastered)).isSome := by
      cases hMc : levelBucket s vocab now MasteryLevel.mastered with
      | nil => exact absurd hMc hM
      | cons a t => exact firstMinBy_isSome _ a t
    obtain ⟨p, hp⟩ := Option.isSome_iff_exists.mp hps
    have hpM : p ∈ levelBucket s vocab now MasteryLevel.mastered :=
      firstMinBy_mem _ _ _ hp
    have hpa : p ∈ activeProgresses s vocab now :=
      ((mem_levelBucket _ _ _ _ _).mp hpM).1
    obtain ⟨w, hwA, hwp, hfind⟩ :=
      activeProgresses_backmap s vocab now hwf hnd p hpa
    refine ⟨p, w, hp, hwA, hwp, ?_⟩
    simp only [selectNextWord]
    rw [if_neg hA', if_pos hsr, head?_sortByKey, hp]
    exact hfind
  · intro hsr hpool
    have hpool' : ¬((practicePoolOf s vocab now).isEmpty = true) := by
      simpa [List.isEmpty_iff] using hpool
    have hps : (firstMinBy (·.accuracy) (practicePoolOf s vocab now)).isSome := by
      cases hPc : practicePoolOf s vocab now with
      | nil => exact absurd hPc hpool
      | cons a t => exact firstMinBy_isSome _ a t
    obtain ⟨p, hp⟩ := Option.isSome_iff_exists.mp hps
    have hpP : p ∈ practicePoolOf s vocab now := firstMinBy_mem _ _ _ hp
    have hpa : p ∈ activeProgresses s vocab now := by
      unfold practicePoolOf at hpP
      split at hpP
      · exact ((mem_levelBucket _ _ _ _ _).mp hpP).1
      · exact ((mem_levelBucket _ _ _ _ _).mp hpP).1
    obtain ⟨w, hwA, hwp, hfind⟩ :=
      activeProgresses_backmap s vocab now hwf hnd p hpa
    refine ⟨p, w, hp, hwA, hwp, ?_⟩
    simp only [selectNextWord]
    rw [if_neg hA', if_neg (by rw [hsr]; simp), if_neg hpool',
      head?_sortByKey, hp]
    exact hfind
  · intro hsr hpool
    have hM : levelBucket s vocab now MasteryLevel.mastered ≠ [] :=
      mastered_nonempty_of_pools_empty s vocab now hA hpool
    have hlen : 0 < (levelBucket s vocab now MasteryLevel.mastered).length :=
      List.length_pos.mpr hM
    have hlt : j % (levelBucket s vocab now MasteryLevel.mastered).length <
        (levelBucket s vocab now MasteryLevel.mastered).length :=
      Nat.mod_lt _ hlen
    have hget : (levelBucket s vocab now MasteryLevel.mastered).get?
        (j % (levelBucket s vocab now MasteryLevel.mastered).length) =
        some ((levelBucket s vocab now MasteryLevel.mastered).get
          ⟨j % (levelBucket s vocab now MasteryLevel.mastered).length, hlt⟩) :=
      List.get?_eq_get hlt
    have hpM : (levelBucket s vocab now MasteryLevel.mastered).get
        ⟨j % (levelBucket s vocab now MasteryLevel.mastered).length, hlt⟩ ∈
        levelBucket s vocab now MasteryLevel.mastered := List.get_mem _ _ hlt
    have hpa : (levelBucket s vocab now MasteryLevel.mastered).get
        ⟨j % (levelBucket s vocab now MasteryLevel.mastered).length, hlt⟩ ∈
        activeProgresses s vocab now :=
      ((mem_levelBucket _ _ _ _ _).mp hpM).1
    obtain ⟨w, hwA, hwp, hfind⟩ :=
      activeProgresses_backmap s vocab now hwf hnd _ hpa
    refine ⟨_, w, hpM, hwA, hwp, ?_⟩
    simp only [selectNextWord]
    rw [if_neg hA', if_neg (by rw [hsr]; simp),
      if_pos (by simpa [List.isEmpty_iff] using hpool), hget]
    exact hfind

/-! ### C7 -/

/-- C7: given pairwise-distinct vocabulary keys and well-keyed tracked
records, SelectNext returns none exactly when the active prefix
vocabulary[0:currentWordIndex] is empty (selection always succeeds on a
non-empty prefix, including the all-mastered fallback), and every
returned entry lies within the active prefix. -/
theorem selectNextWord_domain (s : SmartLearningState)
    (vocab : List VocabEntry) (reviewDraw : Bool) (j : Nat) (now : Int)
    (hwf : WFKeys s.wordProgress)
    (hnd : (vocab.map (·.italian)).Nodup) :
    (selectNextWord s vocab reviewDraw j now = none ↔
      availableWordsOf s vocab = []) ∧
    (∀ e, selectNextWord s vocab reviewDraw j now = some e →
      e ∈ availableWordsOf s vocab) := by
  by_cases hA : availableWordsOf s vocab = []
  · have hnone : selectNextWord s vocab reviewDraw j now = none := by
      simp only [selectNextWord]
      rw [if_pos (by simpa [List.isEmpty_iff] using hA)]
    refine ⟨⟨fun _ => hA, fun _ => hnone⟩, ?_⟩
    intro e he
    rw [hnone] at he
    cases he
  · have hsome : ∃ w, selectNextWord s vocab reviewDraw j now = some w ∧
        w ∈ availableWordsOf s vocab := by
      obtain ⟨b1, b2, b3⟩ :=
        selectNextWord_branches s vocab reviewDraw j now hwf hnd hA
      by_cases hsr : (reviewDraw &&
          !(levelBucket s vocab now MasteryLevel.mastered).isEmpty) = true
      · obtain ⟨p, w, _, hwA, _, hsel⟩ := b1 hsr
        exact ⟨w, hsel, hwA⟩
      · have hsr' : (reviewDraw &&
            !(levelBucket s vocab now MasteryLevel.mastered).isEmpty) =
            false := Bool.eq_false_iff.mpr hsr
        by_cases hpool : practicePoolOf s vocab now = []
        · obtain ⟨p, w, _, hwA, _, hsel⟩ := b3 hsr' hpool
          exact ⟨w, hsel, hwA⟩
        · obtain ⟨p, w, _, hwA, _, hsel⟩ := b2 hsr' hpool
          exact ⟨w, hsel, hwA⟩
    obtain ⟨w, hsel, hwA⟩ := hsome
    refine ⟨⟨?_, fun h => absurd h hA⟩, ?_⟩
    · intro hn
      rw [hsel] at hn
      cases hn
    · intro e he
      rw [hsel] at he
      obtain rfl : w = e := Option.some.inj he
      exact hwA

/-- Witness for C7: the fresh 8-word pool over the sample vocabulary. -/
theorem selectNextWord_domain_witness :
    (selectNextWord demoEightState sampleVocab10 false 0 7 = none ↔
      availableWordsOf demoEightState sampleVocab10 = []) ∧
    (∀ e, selectNextWord demoEightState sampleVocab10 false 0 7 = some e →
      e ∈ availableWordsOf demoEightState sampleVocab10) :=
  selectNextWord_domain demoEightState sampleVocab10 false 0 7
    (by unfold WFKeys; decide) (by decide)

/-! ### C6 -/

/-- A one-entry vocabulary for the review-branch witness. -/
def demoVocab1 : List VocabEntry := [⟨"ciao", "hello"⟩]

/-- C6: when the injected draw selects review and the mastered bucket is
non-empty, SelectNext returns the mastered word with the smallest
lastSeen, ties broken by vocabulary order (the first minimum);
otherwise, when the practice pool (learning bucket if non-empty, else
practiced bucket) is non-empty it returns the pool word of lowest
accuracy, ties broken by vocabulary order -- so with the review draw
forced off every returned word has minimum accuracy in the pool; and
when the draw is off and the pool is empty it returns a mastered word. -/
theorem selectNextWord_policy (s : SmartLearningState)
    (vocab : List VocabEntry) (reviewDraw : Bool) (j : Nat) (now : Int)
    (hwf : WFKeys s.wordProgress)
    (hnd : (vocab.map (·.italian)).Nodup) :
    (reviewDraw = true →
      levelBucket s vocab now MasteryLevel.mastered ≠ [] →
      ∃ w, w ∈ availableWordsOf s vocab ∧
        selectNextWord s vocab reviewDraw j now = some w ∧
        firstMinBy (·.lastSeen)
          (levelBucket s vocab now MasteryLevel.mastered) =
          some (effectiveProgress s now w) ∧
        ∀ q ∈ levelBucket s vocab now MasteryLevel.mastered,
          (effectiveProgress s now w).lastSeen ≤ q.lastSeen) ∧
    ((reviewDraw = false ∨
        levelBucket s vocab now MasteryLevel.mastered = []) →
      practicePoolOf s vocab now ≠ [] →
      ∃ w, w ∈ availableWordsOf s vocab ∧
        selectNextWord s vocab reviewDraw j now = some w ∧
        firstMinBy (·.accuracy) (practicePoolOf s vocab now) =
          some (effectiveProgress s now w) ∧
        ∀ q ∈ practicePoolOf s vocab now,
          (effectiveProgress s now w).accuracy ≤ q.accuracy) ∧
    (reviewDraw = false → practicePoolOf s vocab now = [] →
      availableWordsOf s vocab ≠ [] →
      ∃ w, w ∈ availableWordsOf s vocab ∧
        selectNextWord s vocab reviewDraw j now = some w ∧
        (effectiveProgress s now w).masteryLevel = MasteryLevel.mastered) := by
  refine ⟨?_, ?_, ?_⟩
  · intro hrd hM
    have hA : availableWordsOf s vocab ≠ [] := by
      intro h
      apply hM
      unfold levelBucket activeProgresses
      rw [h]
      rfl
    obtain ⟨b1, _, _⟩ :=
      selectNextWord_branches s vocab reviewDraw j now hwf hnd hA
    have hsr : (reviewDraw &&
        !(levelBucket s vocab now MasteryLevel.mastered).isEmpty) = true := by
      rw [hrd]
      simpa [List.isEmpty_iff] using hM
    obtain ⟨p, w, hp, hwA, hwp, hsel⟩ := b1 hsr
    refine ⟨w, hwA, hsel, ?_, ?_⟩
    · rw [hwp]
      exact hp
    · intro q hq
      rw [hwp]
      exact firstMinBy_le _ _ _ hp q hq
  · intro hc hpool
    have hA : availableWordsOf s vocab ≠ [] := by
      intro h
      apply hpool
      unfold practicePoolOf levelBucket activeProgresses
      rw [h]
      rfl
    obtain ⟨_, b2, _⟩ :=
      selectNextWord_branches s vocab reviewDraw j now hwf hnd hA
    have hsr : (reviewDraw &&
        !(levelBucket s vocab now MasteryLevel.mastered).isEmpty) = false := by
      rcases hc with h | h
      · rw [h]
        rfl
      · rw [h]
        simp
    obtain ⟨p, w, hp, hwA, hwp, hsel⟩ := b2 hsr hpool
    refine ⟨w, hwA, hsel, ?_, ?_⟩
    · rw [hwp]
      exact hp
    · intro q hq
      rw [hwp]
      exact firstMinBy_le _ _ _ hp q hq
  · intro hrd hpool hA
    obtain ⟨_, _, b3⟩ :=
      selectNextWord_branches s vocab reviewDraw j now hwf hnd hA
    have hsr : (reviewDraw &&
        !(levelBucket s vocab now MasteryLevel.mastered).isEmpty) = false := by
      rw [hrd]
      rfl
    obtain ⟨p, w, hpM, hwA, hwp, hsel⟩ := b3 hsr hpool
    refine ⟨w, hwA, hsel, ?_⟩
    rw [hwp]
    exact ((mem_levelBucket _ _ _ _ _).mp hpM).2

/-- Witness for C6: the review branch on a one-word mastered pool and
the practice branch on the fresh 8-word pool. -/
theorem selectNextWord_policy_witness :
    (∃ w, w ∈ availableWordsOf demoMasteredState demoVocab1 ∧
      selectNextWord demoMasteredState demoVocab1 true 0 7 = some w ∧
      firstMinBy (·.lastSeen)
        (levelBucket demoMasteredState demoVocab1 7 MasteryLevel.mastered) =
        some (effectiveProgress demoMasteredState 7 w) ∧
      ∀ q ∈ levelBucket demoMasteredState demoVocab1 7 MasteryLevel.mastered,
        (effectiveProgress demoMasteredState 7 w).lastSeen ≤ q.lastSeen) ∧
    (∃ w, w ∈ availableWordsOf demoEightState sampleVocab10 ∧
      selectNextWord demoEightState sampleVocab10 false 0 7 = some w ∧
      firstMinBy (·.accuracy)
        (practicePoolOf demoEightState sampleVocab10 7) =
        some (effectiveProgress demoEightState 7 w) ∧
      ∀ q ∈ practicePoolOf demoEightState sampleVocab10 7,
        (effectiveProgress demoEightState 7 w).accuracy ≤ q.accuracy) :=
  ⟨(selectNextWord_policy demoMasteredState demoVocab1 true 0 7
      (by unfold WFKeys; decide) (by decide)).1 rfl (by decide),
   (selectNextWord_policy demoEightState sampleVocab10 false 0 7
      (by unfold WFKeys; decide) (by decide)).2.1 (Or.inl rfl) (by decide)⟩
